import Mathlib

set_option maxRecDepth 4000

/-!
Shallow embedding of `fresh.py` (the fresh_script repository).

The title-normalization pipeline (`filter_tags`), the search-result
resolver (`extract_track_url`), the per-post dispatch of `main`
(`processPost` / `addSpotifyTrack`), the batch-overflow handling
(`makeBatches`) and the remove-then-add playlist synchronization loop
(`syncWithReport`, `syncExec`) are translated function by function from
the source. External collaborators (the reddit feed, the Spotify client)
appear as explicit oracle parameters; machine ints are `Int`/`Nat`.
-/

/-- Modelled from the spec: `pun_dict` comes from the repository's
`constants` module, which is not under `src/`. Per §4.1 it maps each
closing bracket to "the matching closer for openChar": `]` matches `[`
and `)` matches `(`. It is only ever applied to `]` and `)`. -/
def pun_dict (c : Char) : Char :=
  if c = ']' then '[' else '('

/-- Modelled from the spec: `ft_set` comes from the repository's
`constants` module, which is not under `src/`. Per §4.2 it is the
configured set of feature-marker words, "e.g. feat, ft, featuring". -/
def ft_set : List String := ["feat", "ft", "featuring"]

/-- Python `str.split()` helper: accumulate the current word, flush it on
whitespace, never emit empty words. -/
def splitWsAux : List Char → List Char → List (List Char)
  | [], acc => if acc.isEmpty then [] else [acc]
  | c :: rest, acc =>
    if c.isWhitespace then
      if acc.isEmpty then splitWsAux rest [] else acc :: splitWsAux rest []
    else
      splitWsAux rest (acc ++ [c])

/-- Python `str.split()` on whitespace (no empty words, runs collapsed). -/
def splitWs (l : List Char) : List (List Char) :=
  splitWsAux l []

/-- Python `' '.join(words)`. -/
def joinWords : List (List Char) → List Char
  | [] => []
  | [w] => w
  | w :: v :: rest => w ++ ' ' :: joinWords (v :: rest)

/-- Python `tags.add(w)` on a set modelled as a duplicate-free list. -/
def addTag (tags : List (List Char)) (w : List Char) : List (List Char) :=
  if w ∈ tags then tags else tags ++ [w]

/-- `for add_tag in ''.join(tag).split(): tags.add(add_tag)` on an
already-split word list. -/
def addTags (tags : List (List Char)) (ws : List (List Char)) : List (List Char) :=
  ws.foldl addTag tags

/-- The mutable locals of the character scan of `filter_tags`
(fresh.py lines 216-251): the tag set, the query buffer
(`filtered_title`), the current tag buffer, `last_pun`, `add_to_tag`. -/
structure ScanState where
  tags : List (List Char)
  filtered : List Char
  tag : List Char
  last_pun : Option Char
  add_to_tag : Bool
deriving DecidableEq

/-- One iteration of `for character in title` in `filter_tags`
(fresh.py lines 226-251): lower-case the character, then branch on
opener / closer / dash / other. -/
def scanStep (st : ScanState) (ch : Char) : ScanState :=
  let c := ch.toLower
  if c = '[' ∨ c = '(' then
    if st.add_to_tag then
      { st with tag := st.tag ++ [c] }
    else
      { st with last_pun := some c, add_to_tag := true }
  else if c = ']' ∨ c = ')' then
    if st.add_to_tag then
      if some (pun_dict c) = st.last_pun then
        { st with tags := addTags st.tags (splitWs st.tag),
                  tag := [], add_to_tag := false }
      else
        { st with tag := st.tag ++ [c] }
    else st
  else if c ≠ '-' then
    if st.add_to_tag then
      { st with tag := st.tag ++ [c] }
    else
      { st with filtered := st.filtered ++ [c] }
  else st

/-- The whole character scan of `filter_tags`. -/
def scanFold (st : ScanState) (l : List Char) : ScanState :=
  l.foldl scanStep st

/-- Initial scan state (`tags = set()`, empty buffers, `last_pun = None`,
`add_to_tag = False`). -/
def initState : ScanState := ⟨[], [], [], none, false⟩

/-- The index bound computed by the feature-truncation loop of
`filter_tags` (fresh.py lines 258-263): Python's
`i = 0; for i in range(len(ws)): if ws[i] in ft_set: i -= 1; break`
followed by the slice `ws[:i + 1]`. `ftBoundAux markers ws k` returns
the final `i + 1` given that the words still to scan are `ws` and the
current loop index is `k`. -/
def ftBoundAux (markers : List (List Char)) : List (List Char) → Nat → Nat
  | [], k => if k = 0 then 1 else k
  | w :: rest, k => if w ∈ markers then k else ftBoundAux markers rest (k + 1)

/-- `filtered_title[:i + 1]`: drop the first feature marker and
everything after it (fresh.py lines 258-263). -/
def truncateWords (markers : List (List Char)) (ws : List (List Char)) :
    List (List Char) :=
  ws.take (ftBoundAux markers ws 0)

/-- `filter_tags` (fresh.py lines 194-266): strip bracket/paren tags into
a set, drop dashes, collapse whitespace, truncate at the first
feature-marker word, and return `(filtered_title, tags)`. -/
def filter_tags (title : String) : String × List String :=
  let st := scanFold initState title.data
  let ws := splitWs st.filtered
  let kept := truncateWords (ft_set.map String.data) ws
  (String.mk (joinWords kept), st.tags.map String.mk)

/-- The `FeatureTruncator` contract of §4.2, as realised by the tail of
`filter_tags`: split on whitespace, truncate at the first marker word,
rejoin with single spaces. -/
def truncate (query : String) (markers : List String) : String :=
  String.mk (joinWords (truncateWords (markers.map String.data) (splitWs query.data)))

/-- The `'external_urls'` dict of a search item: the `'spotify'` key may
be absent. -/
structure ExternalUrls where
  spotify : Option String
deriving DecidableEq

/-- One item of `search['tracks']['items']`: the `'external_urls'` key
may be absent. -/
structure SearchItem where
  external_urls : Option ExternalUrls
deriving DecidableEq

/-- `search['tracks']`: the `'items'` key may be absent. -/
structure TracksField where
  items : Option (List SearchItem)
deriving DecidableEq

/-- A Spotify track-search response: the `'tracks'` key may be absent. -/
structure SearchResponse where
  tracks : Option TracksField
deriving DecidableEq

/-- The `for item in items` loop of `extract_track_url` (fresh.py lines
291-296): return the first url found, skipping items without
`external_urls` or without a `spotify` entry. -/
def firstSpotifyUrl : List SearchItem → Option String
  | [] => none
  | item :: rest =>
    match item.external_urls with
    | some eu =>
      match eu.spotify with
      | some url => some url
      | none => firstSpotifyUrl rest
    | none => firstSpotifyUrl rest

/-- `extract_track_url` (fresh.py lines 269-296). -/
def extract_track_url (search : SearchResponse) : Option String :=
  match search.tracks with
  | some t =>
    match t.items with
    | some items => firstSpotifyUrl items
    | none => none
  | none => none

/-- The candidate list of a response (empty when `tracks` or `items` is
absent). -/
def candidates (s : SearchResponse) : List SearchItem :=
  match s.tracks with
  | some t =>
    match t.items with
    | some items => items
    | none => []
  | none => []

/-- The canonical spotify link carried by a candidate, when present. -/
def candidateLink (i : SearchItem) : Option String :=
  i.external_urls.bind ExternalUrls.spotify

/-- Spec-side reading of the resolver contract (§4.3 / claim C6): "if the
response contains at least one candidate, return a reference built from
the first candidate's canonical link; otherwise return none". -/
def firstCandidateUrl (s : SearchResponse) : Option String :=
  match candidates s with
  | [] => none
  | item :: _ => candidateLink item

/-- A reddit feed post as consumed by `main` (title, url, domain, score). -/
structure Post where
  title : String
  url : String
  domain : String
  score : Int
deriving DecidableEq

/-- `re.search('(track|album)', url)` of fresh.py line 382: the leftmost
occurrence of either literal decides `group(1)`. -/
def reSearchTrackAlbum : List Char → Option String
  | [] => none
  | c :: rest =>
    if ("track".data).isPrefixOf (c :: rest) then some "track"
    else if ("album".data).isPrefixOf (c :: rest) then some "album"
    else reSearchTrackAlbum rest

/-- Python `needle in haystack` substring test. -/
def containsSub (haystack needle : List Char) : Bool :=
  match haystack with
  | [] => needle.isEmpty
  | _ :: rest => needle.isPrefixOf haystack || containsSub rest needle

/-- `if threshold and sub.score < threshold` (fresh.py line 391):
`threshold` is truthy when it is a nonzero int. -/
def belowThreshold (threshold : Option Int) (score : Int) : Bool :=
  match threshold with
  | none => false
  | some t => t != 0 && score < t

/-- `url.split('?')[0]` (fresh.py lines 399-400). -/
def formatUrl (url : String) : String :=
  String.mk (url.data.takeWhile (fun c => c ≠ '?'))

/-- `addSpotifyTrack` (fresh.py lines 380-410). The Spotify
`album_tracks` call is an external collaborator passed as an oracle
returning the album's track links. -/
def addSpotifyTrack (fresh : Bool) (threshold : Option Int) (includeAlbums : Bool)
    (album_tracks : String → List String) (sub : Post) (tracks : List String) :
    List String :=
  match reSearchTrackAlbum sub.url.data with
  | none => tracks
  | some g =>
    if belowThreshold threshold sub.score then tracks
    else if fresh && !(containsSub sub.title.data "[FRESH]".data) then tracks
    else
      let formattedUrl := formatUrl sub.url
      if includeAlbums && g = "album" then
        tracks ++ album_tracks formattedUrl
      else if g = "track" then
        tracks ++ [formattedUrl]
      else tracks

/-- The per-post body of the `for sub in sub_choice` loop of `main`
(fresh.py lines 454-478), before the overflow check. The Spotify track
search is an external collaborator passed as an oracle from queries to
responses. -/
def processPost (fresh : Bool) (threshold : Option Int) (includeAlbums : Bool)
    (search_track : String → SearchResponse) (album_tracks : String → List String)
    (tracks : List String) (sub : Post) : List String :=
  if sub.domain = "open.spotify.com" then
    addSpotifyTrack fresh threshold includeAlbums album_tracks sub tracks
  else
    let r := filter_tags sub.title
    if "discussion" ∈ r.2 then tracks
    else if "album" ∈ r.2 ∨ "impressions" ∈ r.2 then
      tracks
    else
      match extract_track_url (search_track r.1) with
      | some track_url => tracks ++ [track_url]
      | none => tracks

/-- The overflow check at the bottom of the post loop (fresh.py lines
479-482), run once per accumulated track: seal the batch when it
exceeds 90. State is `(tracks, tracks_array)`. -/
def overflowStep (st : List α × List (List α)) (t : α) : List α × List (List α) :=
  let tracks := st.1 ++ [t]
  if tracks.length > 90 then ([], st.2 ++ [tracks]) else (tracks, st.2)

/-- The batching performed by `main` (fresh.py lines 479-485) over a run
in which each post contributes one resolved track: accumulate, seal on
overflow, flush the nonempty remainder after the loop. -/
def makeBatches (l : List α) : List (List α) :=
  let st := l.foldl overflowStep ([], [])
  if st.1.length > 0 then st.2 ++ [st.1] else st.2

/-- Modelled from the spec (§4.4/§6): the catalog collaborator's
`user_playlist_remove_all_occurrences_of_tracks` followed by
`user_playlist_add_tracks` — "remove every occurrence of every track in
the batch from the playlist", then "add the batch's tracks". -/
def removeThenAdd (pl batch : List String) : List String :=
  pl.filter (fun t => !(batch.contains t)) ++ batch

/-- One `(batch, playlist)` iteration of the sync loop (fresh.py lines
493-503): read the old total, remove all occurrences, add the batch, and
report `abs(old_total - new_total)` as printed on lines 501-502. -/
def pairReport (pl batch : List String) : List String × Nat :=
  let old := pl.length
  let pl2 := removeThenAdd pl batch
  (pl2, ((old : Int) - (pl2.length : Int)).natAbs)

/-- The inner `for playlist in user.playlists` loop for one batch:
updated playlist states and the per-playlist reported values. -/
def syncRow (b : List String) : List (List String) → List (List String) × List Nat
  | [] => ([], [])
  | pl :: rest =>
    let r := pairReport pl b
    let rr := syncRow b rest
    (r.1 :: rr.1, r.2 :: rr.2)

/-- The failure-free sync loop `for tr in tracks_array: for playlist in
user.playlists: ...` (fresh.py lines 490-503): final playlist states and
the reported values, one row per batch. -/
def syncWithReport : List (List String) → List (List String) →
    List (List String) × List (List Nat)
  | [], pls => (pls, [])
  | b :: rest, pls =>
    let r := syncRow b pls
    let rr := syncWithReport rest r.1
    (rr.1, r.2 :: rr.2)

/-- Outcome of one sync invocation (fresh.py lines 488-508): every call
succeeded; the bare `except:` printed its single error message; or the
handler itself crashed on the unbound `results` local (no add had
completed when the exception was raised). -/
inductive SyncOutcome where
  | ok : SyncOutcome
  | reportedError : SyncOutcome
  | handlerCrash : SyncOutcome
deriving DecidableEq

/-- One `(batch, playlist)` pair with fallible remove/add collaborator
calls: returns the playlist state, whether `results` is now bound (an
add completed), and whether an exception was raised. A failed remove
leaves the playlist untouched; a failed add leaves the batch removed but
not re-added. -/
def execPair (rOk aOk : Bool) (b pl : List String) (rb : Bool) :
    List String × Bool × Bool :=
  if rOk then
    let pl1 := pl.filter (fun t => !(b.contains t))
    if aOk then (pl1 ++ b, true, false) else (pl1, rb, true)
  else (pl, rb, true)

/-- The inner playlist loop for batch row oracles `rOk aOk : Nat → Bool`
(indexed by playlist position `j`): stops at the first exception,
leaving later playlists untouched. -/
def execRow (rOk aOk : Nat → Bool) (b : List String) :
    List (List String) → Nat → Bool → List (List String) × Bool × Bool
  | [], _, rb => ([], rb, false)
  | pl :: rest, j, rb =>
    let r := execPair (rOk j) (aOk j) b pl rb
    if r.2.2 then (r.1 :: rest, r.2.1, true)
    else
      let rr := execRow rOk aOk b rest (j + 1) r.2.1
      (r.1 :: rr.1, rr.2.1, rr.2.2)

/-- The outer batch loop with per-pair failure oracles
`rOk aOk : Nat → Nat → Bool` (batch index, playlist index): stops at the
first exception. -/
def execBatches (rOk aOk : Nat → Nat → Bool) :
    List (List String) → Nat → List (List String) → Bool →
    List (List String) × Bool × Bool
  | [], _, pls, rb => (pls, rb, false)
  | b :: rest, i, pls, rb =>
    let r := execRow (rOk i) (aOk i) b pls 0 rb
    if r.2.2 then (r.1, r.2.1, true)
    else execBatches rOk aOk rest (i + 1) r.1 r.2.1

/-- The whole guarded `try`/`except` sync block of `main` (fresh.py
lines 488-508): run the double loop; on an exception the bare `except:`
produces a single error message — unless no add ever completed, in which
case reading the unbound `results` local crashes the handler itself. -/
def syncExec (rOk aOk : Nat → Nat → Bool) (bs pls : List (List String)) :
    List (List String) × SyncOutcome :=
  let r := execBatches rOk aOk bs 0 pls false
  (r.1,
    if r.2.2 then
      if r.2.1 then SyncOutcome.reportedError else SyncOutcome.handlerCrash
    else SyncOutcome.ok)

/-- The search oracle used for the concrete threshold run: every query
resolves to one track candidate. -/
def cexSearch (_q : String) : SearchResponse :=
  ⟨some ⟨some [⟨some ⟨some "https://open.spotify.com/track/abc"⟩⟩]⟩⟩

/-- An album oracle returning no tracks (never reached in the runs
below). -/
def noAlbums (_u : String) : List String := []

/-- A search response whose first candidate has no `external_urls` entry
and whose second candidate carries the link `"u"`. -/
def c6Response : SearchResponse :=
  ⟨some ⟨some [⟨none⟩, ⟨some ⟨some "u"⟩⟩]⟩⟩

/-- Sanity evaluation: the parser on the docstring's own example title
(fresh.py line 221). -/
theorem filter_tags_docstring_example :
    filter_tags "[FRESH] Lil Pump - Nice 2 Yeet ya [prod. by D4NNY]" =
      ("lil pump nice 2 yeet ya", ["fresh", "prod.", "by", "d4nny"]) := by decide

theorem splitWsAux_ne_nil (l : List Char) :
    ∀ (acc : List Char), ∀ w ∈ splitWsAux l acc, w ≠ [] := by
  induction l with
  | nil =>
    intro acc w hw
    by_cases h : acc.isEmpty
    · simp [splitWsAux, h] at hw
    · simp [splitWsAux, h] at hw
      subst hw
      simpa using h
  | cons c rest ih =>
    intro acc w hw
    by_cases hws : c.isWhitespace
    · by_cases hacc : acc.isEmpty
      · simp only [splitWsAux, hws, hacc, if_pos, if_true] at hw
        exact ih [] w hw
      · simp only [splitWsAux, hws, hacc, if_true, if_false, Bool.false_eq_true,
          List.mem_cons] at hw
        rcases hw with h1 | h1
        · subst h1; simpa using hacc
        · exact ih [] w h1
    · simp only [splitWsAux, hws, Bool.false_eq_true, if_false] at hw
      exact ih (acc ++ [c]) w hw

theorem splitWsAux_subset (l : List Char) :
    ∀ (acc : List Char) (w : List Char) (c : Char),
      w ∈ splitWsAux l acc → c ∈ w → c ∈ acc ∨ c ∈ l := by
  induction l with
  | nil =>
    intro acc w c hw hc
    by_cases h : acc.isEmpty
    · simp [splitWsAux, h] at hw
    · simp [splitWsAux, h] at hw
      subst hw
      exact Or.inl hc
  | cons ch rest ih =>
    intro acc w c hw hc
    by_cases hws : ch.isWhitespace
    · by_cases hacc : acc.isEmpty
      · simp only [splitWsAux, hws, hacc, if_true] at hw
        rcases ih [] w c hw hc with h | h
        · simp at h
        · exact Or.inr (List.mem_cons_of_mem ch h)
      · simp only [splitWsAux, hws, hacc, if_true, if_false, Bool.false_eq_true,
          List.mem_cons] at hw
        rcases hw with h1 | h1
        · subst h1; exact Or.inl hc
        · rcases ih [] w c h1 hc with h | h
          · simp at h
          · exact Or.inr (List.mem_cons_of_mem ch h)
    · simp only [splitWsAux, hws, Bool.false_eq_true, if_false] at hw
      rcases ih (acc ++ [ch]) w c hw hc with h | h
      · rcases List.mem_append.mp h with h2 | h2
        · exact Or.inl h2
        · simp at h2
          subst h2
          exact Or.inr (List.mem_cons_self _ _)
      · exact Or.inr (List.mem_cons_of_mem ch h)

theorem joinWords_mem (ws : List (List Char)) (c : Char) (h : c ∈ joinWords ws) :
    c = ' ' ∨ ∃ w ∈ ws, c ∈ w := by
  induction ws with
  | nil => simp [joinWords] at h
  | cons w rest ih =>
    cases rest with
    | nil =>
      right
      exact ⟨w, by simp, by simpa [joinWords] using h⟩
    | cons v rest' =>
      simp only [joinWords] at h
      rcases List.mem_append.mp h with h1 | h1
      · right; exact ⟨w, by simp, h1⟩
      · rcases List.mem_cons.mp h1 with h2 | h2
        · left; exact h2
        · rcases ih h2 with h3 | ⟨u, hu, hcu⟩
          · left; exact h3
          · right; exact ⟨u, by simp [hu], hcu⟩

theorem ftBoundAux_eq (markers : List (List Char)) :
    ∀ (ws : List (List Char)) (k : Nat),
      ftBoundAux markers ws k =
        match ws.findIdx? (fun w => decide (w ∈ markers)) with
        | some j => k + j
        | none => if ws = [] ∧ k = 0 then 1 else k + ws.length := by
  intro ws
  induction ws with
  | nil =>
    intro k
    simp [ftBoundAux]
  | cons w rest ih =>
    intro k
    by_cases hw : w ∈ markers
    · simp [ftBoundAux, hw]
    · have hstep : ftBoundAux markers (w :: rest) k = ftBoundAux markers rest (k + 1) := by
        simp [ftBoundAux, hw]
      rw [hstep, ih (k + 1)]
      have h1 : (w :: rest).findIdx? (fun w => decide (w ∈ markers)) =
          (rest.findIdx? (fun w => decide (w ∈ markers))).map (fun j => j + 1) := by
        rw [List.findIdx?_cons]
        simp [hw, List.findIdx?_succ]
      rw [h1]
      cases h2 : rest.findIdx? (fun w => decide (w ∈ markers)) with
      | some j => simp; exact (Nat.add_right_comm k 1 j).trans (Nat.add_assoc k j 1)
      | none =>
        simp
        exact (Nat.add_right_comm k 1 rest.length).trans (Nat.add_assoc k rest.length 1)

theorem truncateWords_eq (markers ws : List (List Char)) :
    truncateWords markers ws =
      match ws.findIdx? (fun w => decide (w ∈ markers)) with
      | some j => ws.take j
      | none => ws := by
  unfold truncateWords
  rw [ftBoundAux_eq]
  cases h : ws.findIdx? (fun w => decide (w ∈ markers)) with
  | some j => simp
  | none =>
    cases ws with
    | nil => simp
    | cons w rest => simp

/-- Claim C7: the feature truncation keeps exactly the words before the
first marker word (the marker and everything after it are dropped),
leaves the sequence unchanged when no word is a marker, and rejoins the
kept words with single spaces; in particular
`truncate "drake ft future" with marker set containing only "ft"` is
`"drake"` and `"no markers here"` is returned unchanged. -/
theorem claim_c7 :
    (∀ (markers ws : List (List Char)),
        truncateWords markers ws =
          match ws.findIdx? (fun w => decide (w ∈ markers)) with
          | some j => ws.take j
          | none => ws) ∧
    truncate "drake ft future" ["ft"] = "drake" ∧
    truncate "no markers here" ["ft"] = "no markers here" :=
  ⟨fun markers ws => truncateWords_eq markers ws, by decide, by decide⟩

theorem addTag_ne_nil (tags : List (List Char)) (u : List Char)
    (htags : ∀ w ∈ tags, w ≠ []) (hu : u ≠ []) : ∀ w ∈ addTag tags u, w ≠ [] := by
  unfold addTag
  by_cases h : u ∈ tags
  · simpa [h] using htags
  · intro w hw
    simp only [h, if_false, List.mem_append, List.mem_singleton] at hw
    rcases hw with hw | hw
    · exact htags w hw
    · exact hw ▸ hu

theorem addTags_ne_nil (ws : List (List Char)) :
    ∀ (tags : List (List Char)), (∀ w ∈ tags, w ≠ []) → (∀ w ∈ ws, w ≠ []) →
      ∀ w ∈ addTags tags ws, w ≠ [] := by
  induction ws with
  | nil =>
    intro tags htags _
    simpa [addTags] using htags
  | cons u rest ih =>
    intro tags htags hws
    have h1 : addTags tags (u :: rest) = addTags (addTag tags u) rest := rfl
    rw [h1]
    exact ih (addTag tags u)
      (addTag_ne_nil tags u htags (hws u (List.mem_cons_self _ _)))
      (fun w hw => hws w (List.mem_cons_of_mem u hw))

theorem scanStep_tags (st : ScanState) (ch : Char) :
    (scanStep st ch).tags = st.tags ∨
    (scanStep st ch).tags = addTags st.tags (splitWs st.tag) := by
  unfold scanStep
  by_cases h1 : ch.toLower = '[' ∨ ch.toLower = '('
  · by_cases h2 : st.add_to_tag <;> simp [h1, h2]
  · by_cases h2 : ch.toLower = ']' ∨ ch.toLower = ')'
    · by_cases h3 : st.add_to_tag
      · by_cases h4 : some (pun_dict ch.toLower) = st.last_pun
        · simp [h1, h2, h3, h4]
        · simp [h1, h2, h3, h4]
      · simp [h1, h2, h3]
    · by_cases h3 : ch.toLower = '-'
      · simp [h1, h2, h3]
      · by_cases h4 : st.add_to_tag <;> simp [h1, h2, h3, h4]

theorem scanStep_tags_ne_nil (st : ScanState) (ch : Char)
    (h : ∀ w ∈ st.tags, w ≠ []) : ∀ w ∈ (scanStep st ch).tags, w ≠ [] := by
  rcases scanStep_tags st ch with heq | heq <;> rw [heq]
  · exact h
  · exact addTags_ne_nil (splitWs st.tag) st.tags h (splitWsAux_ne_nil st.tag [])

theorem scanFold_tags_ne_nil (l : List Char) :
    ∀ st : ScanState, (∀ w ∈ st.tags, w ≠ []) → ∀ w ∈ (scanFold st l).tags, w ≠ [] := by
  induction l with
  | nil => intro st h; simpa [scanFold] using h
  | cons c rest ih =>
    intro st h
    have h1 : scanFold st (c :: rest) = scanFold (scanStep st c) rest := rfl
    rw [h1]
    exact ih (scanStep st c) (scanStep_tags_ne_nil st c h)

/-- Claim C5 (amended): the tag set returned by the title parser never
contains an empty string. (It can contain punctuation-only tokens: a
mismatched closer absorbed into a tag becomes a tag word, see the
counterexample.) -/
theorem claim_c5_amended (title : String) (w : String)
    (hw : w ∈ (filter_tags title).2) : 0 < w.length := by
  have h : (filter_tags title).2 = (scanFold initState title.data).tags.map String.mk := rfl
  rw [h] at hw
  rcases List.mem_map.mp hw with ⟨u, hu, rfl⟩
  have hne := scanFold_tags_ne_nil title.data initState (by simp [initState]) u hu
  have hlen : (String.mk u).length = u.length := rfl
  rw [hlen]
  exact List.length_pos.mpr hne

theorem claim_c5_witness : (0 : Nat) < ("]" : String).length :=
  claim_c5_amended "(])" "]" (by decide)

/-- Claim C5 counterexample: on the title `"(])"` the parser's tag set
contains the token `"]"`, which consists only of bracket punctuation —
refuting "never contains a punctuation-only token". (The mismatched `]`
is appended to the open `(...)` tag buffer, and the matching `)` then
flushes it as a tag word.) -/
theorem claim_c5_counterexample :
    "]" ∈ (filter_tags "(])").2 ∧
    ("]").data.all (fun c => c == '[' || c == ']' || c == '(' || c == ')') = true ∧
    ("]" : String) ≠ "" := by decide

/-- Claim C8: a mismatched closer inside an open tag never closes the
tag — it is appended literally to the tag buffer and the scan state
stays in tag mode with tags and query buffer untouched; and on the
spec's example `"(prod. by X]"` the unterminated tag's content is
permanently discarded, appearing in neither the returned query nor the
returned tag set. -/
theorem claim_c8 :
    (∀ (st : ScanState) (c : Char), st.add_to_tag = true → (c = ']' ∨ c = ')') →
        some (pun_dict c) ≠ st.last_pun →
        scanStep st c = { st with tag := st.tag ++ [c] }) ∧
    filter_tags "(prod. by X]" = ("", []) := by
  constructor
  · intro st c hatt hc hne
    rcases hc with rfl | rfl <;>
    · simp only [scanStep]
      split_ifs with h1 h2 h3 <;>
        first
        | rfl
        | exact absurd h1 (by decide)
        | exact absurd h2 (by decide)
        | exact absurd h3 hne
  · decide

theorem claim_c8_witness :
    scanStep ⟨[], [], ['p'], some '(', true⟩ ']' = ⟨[], [], ['p', ']'], some '(', true⟩ :=
  claim_c8.1 ⟨[], [], ['p'], some '(', true⟩ ']' rfl (Or.inl rfl) (by decide)

theorem scanStep_filtered_shape (st : ScanState) (ch : Char) :
    (scanStep st ch).filtered = st.filtered ∨
    ((scanStep st ch).filtered = st.filtered ++ [ch.toLower] ∧
     ¬(ch.toLower = '[' ∨ ch.toLower = '(') ∧
     ¬(ch.toLower = ']' ∨ ch.toLower = ')')) := by
  unfold scanStep
  by_cases h1 : ch.toLower = '[' ∨ ch.toLower = '('
  · by_cases h2 : st.add_to_tag <;> simp [h1, h2]
  · by_cases h2 : ch.toLower = ']' ∨ ch.toLower = ')'
    · by_cases h3 : st.add_to_tag
      · by_cases h4 : some (pun_dict ch.toLower) = st.last_pun <;> simp [h1, h2, h3, h4]
      · simp [h1, h2, h3]
    · by_cases h3 : ch.toLower = '-'
      · simp [h1, h2, h3]
      · by_cases h4 : st.add_to_tag <;> simp [h1, h2, h3, h4]

theorem scanStep_filtered (st : ScanState) (ch : Char) (c : Char)
    (hc : c ∈ (scanStep st ch).filtered) :
    c ∈ st.filtered ∨ (c ≠ '[' ∧ c ≠ ']' ∧ c ≠ '(' ∧ c ≠ ')') := by
  rcases scanStep_filtered_shape st ch with heq | ⟨heq, h1, h2⟩
  · rw [heq] at hc
    exact Or.inl hc
  · rw [heq] at hc
    rcases List.mem_append.mp hc with h | h
    · exact Or.inl h
    · right
      simp at h
      push_neg at h1 h2
      subst h
      exact ⟨h1.1, h2.1, h1.2, h2.2⟩

theorem scanFold_filtered (l : List Char) :
    ∀ (st : ScanState) (c : Char), c ∈ (scanFold st l).filtered →
      c ∈ st.filtered ∨ (c ≠ '[' ∧ c ≠ ']' ∧ c ≠ '(' ∧ c ≠ ')') := by
  induction l with
  | nil => intro st c hc; exact Or.inl hc
  | cons ch rest ih =>
    intro st c hc
    have h1 : scanFold st (ch :: rest) = scanFold (scanStep st ch) rest := rfl
    rw [h1] at hc
    rcases ih (scanStep st ch) c hc with h | h
    · exact scanStep_filtered st ch c h
    · exact Or.inr h

/-- Claim C10: the query returned by the title parser, for any title
(brackets balanced or not), contains none of the characters `[`, `]`,
`(`, `)`; an opener either starts a tag or is absorbed into the current
tag buffer; and a closer encountered outside any tag leaves the scan
state completely unchanged (it appears in neither the query nor the tag
set). -/
theorem claim_c10 :
    (∀ (title : String) (c : Char), c ∈ (filter_tags title).1.data →
        c ≠ '[' ∧ c ≠ ']' ∧ c ≠ '(' ∧ c ≠ ')') ∧
    (∀ (st : ScanState) (c : Char), (c = '[' ∨ c = '(') →
        scanStep st c =
          if st.add_to_tag then { st with tag := st.tag ++ [c] }
          else { st with last_pun := some c, add_to_tag := true }) ∧
    (∀ (st : ScanState) (c : Char), st.add_to_tag = false → (c = ']' ∨ c = ')') →
        scanStep st c = st) := by
  refine ⟨?_, ?_, ?_⟩
  · intro title c hc
    have h : (filter_tags title).1.data =
        joinWords (truncateWords (ft_set.map String.data)
          (splitWs (scanFold initState title.data).filtered)) := rfl
    rw [h] at hc
    rcases joinWords_mem _ c hc with rfl | ⟨w, hw, hcw⟩
    · decide
    · have hw' : w ∈ splitWs (scanFold initState title.data).filtered :=
        List.take_subset _ _ hw
      have hcf : c ∈ (scanFold initState title.data).filtered := by
        rcases splitWsAux_subset _ [] w c hw' hcw with h2 | h2
        · simp at h2
        · exact h2
      rcases scanFold_filtered title.data initState c hcf with h2 | h2
      · simp [initState] at h2
      · exact h2
  · intro st c hc
    rcases hc with rfl | rfl <;>
    · simp only [scanStep]
      split_ifs with h1 h2 <;>
        first
        | rfl
        | exact absurd h1 (by decide)
  · intro st c hatt hc
    rcases hc with rfl | rfl <;>
    · simp only [scanStep]
      split_ifs with h1 h2 h3 <;>
        first
        | rfl
        | exact absurd h1 (by decide)
        | exact absurd h3 (by decide)
        | exact absurd ‹st.add_to_tag = true› (by simp [hatt])

theorem claim_c10_witness : 'a' ≠ '[' ∧ 'a' ≠ ']' ∧ 'a' ≠ '(' ∧ 'a' ≠ ')' :=
  claim_c10.1 "a]b(c" 'a' (by decide)

theorem overflow_foldl_inv {α : Type} (l : List α) :
    ∀ (acc : List α) (arr : List (List α)),
      acc.length ≤ 90 → (∀ b ∈ arr, b.length = 91) →
      (l.foldl overflowStep (acc, arr)).1.length ≤ 90 ∧
      (∀ b ∈ (l.foldl overflowStep (acc, arr)).2, b.length = 91) ∧
      (l.foldl overflowStep (acc, arr)).2.flatten ++ (l.foldl overflowStep (acc, arr)).1 =
        arr.flatten ++ acc ++ l := by
  induction l with
  | nil =>
    intro acc arr h1 h2
    exact ⟨h1, h2, by simp⟩
  | cons t rest ih =>
    intro acc arr h1 h2
    rw [List.foldl_cons]
    by_cases hlen : (acc ++ [t]).length > 90
    · have hstep : overflowStep (acc, arr) t = ([], arr ++ [acc ++ [t]]) := by
        simp only [overflowStep]
        rw [if_pos hlen]
      rw [hstep]
      have hlen91 : (acc ++ [t]).length = 91 := by
        simp only [List.length_append, List.length_singleton]
        simp only [List.length_append, List.length_singleton] at hlen
        omega
      obtain ⟨g1, g2, g3⟩ := ih [] (arr ++ [acc ++ [t]]) (by simp)
        (by
          intro b hb
          rcases List.mem_append.mp hb with hb | hb
          · exact h2 b hb
          · rw [List.mem_singleton.mp hb]
            exact hlen91)
      refine ⟨g1, g2, ?_⟩
      rw [g3]
      simp
    · have hstep : overflowStep (acc, arr) t = (acc ++ [t], arr) := by
        simp only [overflowStep]
        rw [if_neg hlen]
      rw [hstep]
      obtain ⟨g1, g2, g3⟩ := ih (acc ++ [t]) arr
        (by
          simp only [List.length_append, List.length_singleton]
          simp only [List.length_append, List.length_singleton, gt_iff_lt, not_lt] at hlen
          omega) h2
      refine ⟨g1, g2, ?_⟩
      rw [g3]
      simp

/-- Claim C1 (amended): the overflow handling of `main` seals a batch
only once it exceeds 90 tracks, so when each post contributes one track
the batches are consecutive, order-preserving (their concatenation is
the input), every batch has at most 91 tracks, every batch except
possibly the last has exactly 91 tracks, and an input of 95 tracks
yields exactly two batches of 91 and 4 tracks. -/
theorem claim_c1_amended :
    (∀ (α : Type) (l : List α),
        (makeBatches l).flatten = l ∧
        (∀ b ∈ makeBatches l, b.length ≤ 91) ∧
        (∀ b ∈ (makeBatches l).dropLast, b.length = 91)) ∧
    (makeBatches (List.range 95)).map List.length = [91, 4] := by
  constructor
  · intro α l
    obtain ⟨g1, g2, g3⟩ := overflow_foldl_inv l [] [] (by simp) (by simp)
    unfold makeBatches
    by_cases h : (l.foldl overflowStep ([], [])).1.length > 0
    · rw [if_pos h]
      refine ⟨?_, ?_, ?_⟩
      · rw [List.flatten_append]
        simpa using g3
      · intro b hb
        rcases List.mem_append.mp hb with hb | hb
        · have := g2 b hb; omega
        · rw [List.mem_singleton.mp hb]; omega
      · intro b hb
        rw [List.dropLast_concat] at hb
        exact g2 b hb
    · rw [if_neg h]
      have hacc : (l.foldl overflowStep ([], [])).1 = [] :=
        List.eq_nil_of_length_eq_zero (by omega)
      refine ⟨?_, ?_, ?_⟩
      · rw [hacc] at g3
        simpa using g3
      · intro b hb
        have := g2 b hb; omega
      · intro b hb
        exact g2 b (List.dropLast_subset _ hb)
  · decide

/-- Claim C1 counterexample: 95 tracks (one per post) do not yield
batches of 90 and 5 — the overflow check `len(tracks) > 90` fires only
at 91, so the run yields batches of 91 and 4. -/
theorem claim_c1_counterexample :
    (makeBatches (List.range 95)).map List.length = [91, 4] ∧
    ¬((makeBatches (List.range 95)).map List.length = [90, 5]) := by
  constructor <;> decide

theorem claim_c1_witness : (List.range 91).length = 91 :=
  (claim_c1_amended.1 Nat (List.range 92)).2.2 (List.range 91) (by decide)

theorem firstSpotifyUrl_eq (items : List SearchItem) :
    firstSpotifyUrl items = items.findSome? candidateLink := by
  induction items with
  | nil => rfl
  | cons item rest ih =>
    rw [List.findSome?_cons]
    cases hitem : item.external_urls with
    | none => simpa [firstSpotifyUrl, hitem, candidateLink] using ih
    | some eu =>
      cases heu : eu.spotify with
      | none => simpa [firstSpotifyUrl, hitem, heu, candidateLink] using ih
      | some url => simp [firstSpotifyUrl, hitem, heu, candidateLink]

/-- Claim C6 (amended): for every search response, the resolver returns
the canonical spotify link of the first candidate that carries one
(candidates without an `external_urls`/`spotify` entry are skipped), and
`none` when no candidate carries a link or the `tracks`/`items` keys are
absent. No ranking or re-query logic is applied. -/
theorem claim_c6_amended (s : SearchResponse) :
    extract_track_url s = (candidates s).findSome? candidateLink := by
  obtain ⟨tr⟩ := s
  cases tr with
  | none => rfl
  | some t =>
    obtain ⟨items⟩ := t
    cases items with
    | none => rfl
    | some l => exact firstSpotifyUrl_eq l

/-- Claim C6 counterexample: on a response whose candidate list is
nonempty but whose first candidate carries no spotify link, the code
returns the second candidate's link `"u"`, not a reference built from
the first candidate — so "the first candidate always wins" fails. -/
theorem claim_c6_counterexample :
    extract_track_url c6Response = some "u" ∧
    firstCandidateUrl c6Response = none ∧
    extract_track_url c6Response ≠ firstCandidateUrl c6Response := by
  refine ⟨rfl, rfl, ?_⟩
  decide

theorem syncRow_fst (b : List String) :
    ∀ pls : List (List String),
      (syncRow b pls).1 = pls.map (fun pl => removeThenAdd pl b) := by
  intro pls
  induction pls with
  | nil => rfl
  | cons pl rest ih => simp [syncRow, ih, pairReport]

theorem syncRow_snd (b : List String) :
    ∀ pls : List (List String),
      (syncRow b pls).2 = pls.map
        (fun pl => ((pl.length : Int) - ((removeThenAdd pl b).length : Int)).natAbs) := by
  intro pls
  induction pls with
  | nil => rfl
  | cons pl rest ih => simp [syncRow, ih, pairReport]

theorem syncWithReport_fst :
    ∀ (bs : List (List String)) (pls : List (List String)),
      (syncWithReport bs pls).1 = pls.map (fun pl => bs.foldl removeThenAdd pl) := by
  intro bs
  induction bs with
  | nil =>
    intro pls
    simp [syncWithReport]
  | cons b rest ih =>
    intro pls
    simp only [syncWithReport]
    rw [syncRow_fst, ih, List.map_map]
    rfl

theorem mem_removeThenAdd (pl b : List String) (t : String) :
    t ∈ removeThenAdd pl b ↔ t ∈ pl ∨ t ∈ b := by
  unfold removeThenAdd
  simp only [List.mem_append, List.mem_filter, Bool.not_eq_true', List.contains,
    List.elem_eq_mem, decide_eq_false_iff_not]
  constructor
  · rintro (⟨h1, _⟩ | h1)
    · exact Or.inl h1
    · exact Or.inr h1
  · rintro (h1 | h1)
    · by_cases h2 : t ∈ b
      · exact Or.inr h2
      · exact Or.inl ⟨h1, h2⟩
    · exact Or.inr h1

theorem mem_foldl_removeThenAdd :
    ∀ (bs : List (List String)) (pl : List String) (t : String),
      t ∈ bs.foldl removeThenAdd pl ↔ t ∈ pl ∨ ∃ b ∈ bs, t ∈ b := by
  intro bs
  induction bs with
  | nil => simp
  | cons b rest ih =>
    intro pl t
    rw [List.foldl_cons, ih, mem_removeThenAdd]
    constructor
    · rintro ((h | h) | ⟨u, hu, ht⟩)
      · exact Or.inl h
      · exact Or.inr ⟨b, by simp, h⟩
      · exact Or.inr ⟨u, by simp [hu], ht⟩
    · rintro (h | ⟨u, hu, ht⟩)
      · exact Or.inl (Or.inl h)
      · rcases List.mem_cons.mp hu with rfl | hu'
        · exact Or.inl (Or.inr ht)
        · exact Or.inr ⟨u, hu', ht⟩

/-- Claim C9: running the sync loop (remove all occurrences of the
batch's tracks then add the batch, per batch per playlist) twice with
the same track sequence and the same playlists leaves each playlist's
final track set unchanged after the second run — remove-then-add is a
fixed point on the playlist's track set. -/
theorem claim_c9 (tracks : List String) (pls : List (List String)) :
    List.Forall₂ (fun p q => ∀ t, t ∈ p ↔ t ∈ q)
      (syncWithReport (makeBatches tracks)
        ((syncWithReport (makeBatches tracks) pls).1)).1
      ((syncWithReport (makeBatches tracks) pls).1) := by
  simp only [syncWithReport_fst, List.map_map]
  induction pls with
  | nil => constructor
  | cons pl rest ih =>
    simp only [List.map_cons]
    refine List.Forall₂.cons ?_ ih
    intro t
    simp only [Function.comp]
    rw [mem_foldl_removeThenAdd, mem_foldl_removeThenAdd]
    tauto

/-- Claim C4 (amended): for each (batch, playlist) pair the reported
observability value is the absolute difference `|old total - new total|`
of the playlist's track counts around that pair's remove-then-add — not
the signed difference. The totals are characterized independently by
folding the prefix of batches over the playlist's initial state. -/
theorem claim_c4_amended :
    ∀ (bs pls : List (List String)) (i j : Nat) (pl : List String),
      i < bs.length → pls[j]? = some pl →
      ((syncWithReport bs pls).2[i]?.bind (fun row => row[j]?)) =
        some (((((bs.take i).foldl removeThenAdd pl).length : Int) -
               (((bs.take (i + 1)).foldl removeThenAdd pl).length : Int)).natAbs) := by
  intro bs
  induction bs with
  | nil =>
    intro pls i j pl hi
    simp at hi
  | cons b rest ih =>
    intro pls i j pl hi hj
    cases i with
    | zero =>
      show ((syncRow b pls).2 :: (syncWithReport rest (syncRow b pls).1).2)[0]?.bind
          (fun row => row[j]?) = _
      rw [List.getElem?_cons_zero]
      rw [Option.some_bind]
      rw [syncRow_snd, List.getElem?_map, hj]
      rfl
    | succ i' =>
      have hj' : (syncRow b pls).1[j]? = some (removeThenAdd pl b) := by
        rw [syncRow_fst, List.getElem?_map, hj]
        rfl
      have h := ih (syncRow b pls).1 i' j (removeThenAdd pl b) (by simpa using hi) hj'
      show ((syncRow b pls).2 :: (syncWithReport rest (syncRow b pls).1).2)[i' + 1]?.bind
          (fun row => row[j]?) = _
      rw [List.getElem?_cons_succ]
      rw [h, List.take_succ_cons, List.take_succ_cons, List.foldl_cons, List.foldl_cons]

theorem claim_c4_witness :
    ((syncWithReport [["a"]] [["a", "a", "a"]]).2[0]?.bind (fun row => row[0]?)) =
      some 2 := by
  have h := claim_c4_amended [["a"]] [["a", "a", "a"]] 0 0 ["a", "a", "a"]
    (by decide) (by decide)
  rw [h]
  decide

/-- Claim C4 counterexample: syncing the batch `["a"]` into the playlist
`["a", "a", "a"]` removes three occurrences and re-adds one, so the new
total is 1 and the old total is 3; the code reports
`abs(3 - 1) = 2`, while the claimed signed net change `new - old` is
`1 - 3 = -2 ≠ 2`. -/
theorem claim_c4_counterexample :
    (syncWithReport [["a"]] [["a", "a", "a"]]).2 = [[2]] ∧
    (syncWithReport [["a"]] [["a", "a", "a"]]).1 = [["a"]] ∧
    ¬((2 : Int) = (1 : Int) - (3 : Int)) := by
  refine ⟨by decide, by decide, by decide⟩

theorem execPair_err (rOk aOk : Bool) (b pl : List String) (rb : Bool) :
    (execPair rOk aOk b pl rb).2.2 = false ↔ rOk = true ∧ aOk = true := by
  cases rOk <;> cases aOk <;> simp [execPair]

theorem execRow_len (rOk aOk : Nat → Bool) (b : List String) :
    ∀ (pls : List (List String)) (j : Nat) (rb : Bool),
      (execRow rOk aOk b pls j rb).1.length = pls.length := by
  intro pls
  induction pls with
  | nil => intro j rb; rfl
  | cons pl rest ih =>
    intro j rb
    simp only [execRow]
    by_cases h : (execPair (rOk j) (aOk j) b pl rb).2.2
    · simp [h]
    · simp [h, ih (j + 1)]

theorem execRow_err (rOk aOk : Nat → Bool) (b : List String) :
    ∀ (pls : List (List String)) (j : Nat) (rb : Bool),
      (execRow rOk aOk b pls j rb).2.2 = false ↔
        ∀ k, k < pls.length → rOk (j + k) = true ∧ aOk (j + k) = true := by
  intro pls
  induction pls with
  | nil =>
    intro j rb
    simp [execRow]
  | cons pl rest ih =>
    intro j rb
    simp only [execRow]
    by_cases hp : (execPair (rOk j) (aOk j) b pl rb).2.2
    · rw [if_pos hp]
      constructor
      · intro h; exact absurd h (by simp)
      · intro h
        exfalso
        have h0 := h 0 (by simp)
        rw [Nat.add_zero] at h0
        have h1 := (execPair_err (rOk j) (aOk j) b pl rb).mpr h0
        rw [h1] at hp
        simp at hp
    · rw [if_neg hp]
      rw [ih (j + 1) (execPair (rOk j) (aOk j) b pl rb).2.1]
      have hpe : rOk j = true ∧ aOk j = true :=
        (execPair_err (rOk j) (aOk j) b pl rb).mp
          (by
            cases h : (execPair (rOk j) (aOk j) b pl rb).2.2
            · rfl
            · exact absurd h hp)
      constructor
      · intro h k hk
        cases k with
        | zero =>
          rw [Nat.add_zero]
          exact hpe
        | succ k' =>
          have hk' : k' < rest.length := by
            simp only [List.length_cons] at hk
            omega
          have h2 := h k' hk'
          have heq : j + 1 + k' = j + (k' + 1) := by omega
          rw [heq] at h2
          exact h2
      · intro h k hk
        have h2 := h (k + 1) (by simp only [List.length_cons]; omega)
        have heq : j + (k + 1) = j + 1 + k := by omega
        rw [heq] at h2
        exact h2

theorem execBatches_err (rOk aOk : Nat → Nat → Bool) :
    ∀ (bs : List (List String)) (i : Nat) (pls : List (List String)) (rb : Bool),
      (execBatches rOk aOk bs i pls rb).2.2 = false ↔
        ∀ k, k < bs.length → ∀ j, j < pls.length →
          rOk (i + k) j = true ∧ aOk (i + k) j = true := by
  intro bs
  induction bs with
  | nil =>
    intro i pls rb
    simp [execBatches]
  | cons b rest ih =>
    intro i pls rb
    simp only [execBatches]
    by_cases hr : (execRow (rOk i) (aOk i) b pls 0 rb).2.2
    · rw [if_pos hr]
      constructor
      · intro h; exact absurd h (by simp)
      · intro h
        exfalso
        have hall : ∀ k, k < pls.length → rOk i (0 + k) = true ∧ aOk i (0 + k) = true := by
          intro k hk
          rw [Nat.zero_add]
          have h2 := h 0 (by simp) k hk
          rw [Nat.add_zero] at h2
          exact h2
        have h1 := (execRow_err (rOk i) (aOk i) b pls 0 rb).mpr hall
        rw [h1] at hr
        simp at hr
    · rw [if_neg hr]
      rw [ih (i + 1) (execRow (rOk i) (aOk i) b pls 0 rb).1
        (execRow (rOk i) (aOk i) b pls 0 rb).2.1]
      rw [execRow_len]
      have hrow : ∀ k, k < pls.length → rOk i (0 + k) = true ∧ aOk i (0 + k) = true :=
        (execRow_err (rOk i) (aOk i) b pls 0 rb).mp
          (by
            cases h : (execRow (rOk i) (aOk i) b pls 0 rb).2.2
            · rfl
            · exact absurd h hr)
      constructor
      · intro h k hk j hj
        cases k with
        | zero =>
          rw [Nat.add_zero]
          have h2 := hrow j hj
          rw [Nat.zero_add] at h2
          exact h2
        | succ k' =>
          have hk' : k' < rest.length := by
            simp only [List.length_cons] at hk
            omega
          have h2 := h k' hk' j hj
          have heq : i + 1 + k' = i + (k' + 1) := by omega
          rw [heq] at h2
          exact h2
      · intro h k hk j hj
        have h2 := h (k + 1) (by simp only [List.length_cons]; omega) j hj
        have heq : i + (k + 1) = i + 1 + k := by omega
        rw [heq] at h2
        exact h2

/-- Claim C3: the sync block runs inside a single `try`/`except`; a
remove or add failure for some (batch, playlist) pair aborts the run and
produces exactly one non-ok outcome for the whole sync invocation (the
handler's single printed aggregate message — or the handler's own crash
on the unbound `results` local), never a silent success: the outcome is
`ok` precisely when every remove and add call in range succeeds. -/
theorem claim_c3 (rOk aOk : Nat → Nat → Bool) (bs pls : List (List String)) :
    (syncExec rOk aOk bs pls).2 = SyncOutcome.ok ↔
      ∀ i, i < bs.length → ∀ j, j < pls.length → rOk i j = true ∧ aOk i j = true := by
  have h := execBatches_err rOk aOk bs 0 pls false
  simp only [syncExec]
  by_cases he : (execBatches rOk aOk bs 0 pls false).2.2
  · rw [if_pos he]
    constructor
    · intro hok
      cases hb : (execBatches rOk aOk bs 0 pls false).2.1 <;> rw [hb] at hok <;> simp at hok
    · intro hall
      exfalso
      have h1 : (execBatches rOk aOk bs 0 pls false).2.2 = false :=
        h.mpr
          (by
            intro k hk j hj
            rw [Nat.zero_add]
            exact hall k hk j hj)
      rw [h1] at he
      simp at he
  · rw [if_neg he]
    constructor
    · intro _ i hi j hj
      have h2 := h.mp
        (by
          cases h3 : (execBatches rOk aOk bs 0 pls false).2.2
          · rfl
          · exact absurd h3 he) i hi j hj
      rw [Nat.zero_add] at h2
      exact h2
    · intro _
      rfl

theorem claim_c3_witness :
    (syncExec (fun _ _ => true) (fun _ _ => true) [["a"]] [["b"]]).2 = SyncOutcome.ok :=
  (claim_c3 (fun _ _ => true) (fun _ _ => true) [["a"]] [["b"]]).mpr
    (fun _ _ _ _ => ⟨rfl, rfl⟩)

/-- Claim C2, evaluated at the failing input: a post on a non-catalog
domain (`youtu.be`) with score 1, below the configured threshold 50, is
still resolved by title search and its track is queued — the code
checks the threshold only inside `addSpotifyTrack`, which runs only for
`open.spotify.com` posts (third conjunct: the same score and threshold
on a direct catalog link is discarded). -/
theorem claim_c2_code_eval :
    processPost false (some 50) false cexSearch noAlbums []
        ⟨"some song", "https://youtu.be/xyz", "youtu.be", 1⟩ =
      ["https://open.spotify.com/track/abc"] ∧
    (1 : Int) < 50 ∧
    addSpotifyTrack false (some 50) false noAlbums
        ⟨"some song", "https://open.spotify.com/track/abc", "open.spotify.com", 1⟩ [] =
      [] := by
  refine ⟨by decide, by decide, by decide⟩
